import Mathlib

/-!
Shallow embedding of `src/UCTOptimizer.py` (class `IntervalNode` and class
`UCTOptimizer`).

Modelling choices:
* Python floats are embedded as exact rationals (`ℚ`); the interval
  arithmetic of the claims is stated "up to floating-point tolerance", which
  is exact over `ℚ`.
* The mutable `IntervalNode` objects form a tree via the `children` slot
  arrays together with the `parent` back-reference installed by `add_child`.
  The embedding is the inductive tree of the `children` arrays; a node is
  addressed by the list of child-slot indices leading to it from the root,
  and the parent of the node at path `p ++ [i]` is the node at path `p`
  (exactly the pointer structure `add_child` maintains).
* Methods that can raise a Python exception (`KeyError` from the
  `WIN_RESULTS` dict lookup, `IndexError` from list indexing, ...) return
  `Option` or `Except`.
* `random.randrange` / `random.sample` / `random.uniform` and the external
  subprocess call in `UCTOptimizer.sample` are replaced by explicit oracle
  arguments, making the embedded functions deterministic.
-/

namespace UCTOpt

/-- One sampling record `(parameter name, sampled value, outcome string)`,
the tuple passed to `propegate_result`. -/
abbrev Sample := String × ℚ × String

/-- `IntervalNode.WIN_RESULTS = {'W': 1, 'L': 0, 'D': 0}`.  A lookup with a
key outside the three entries is a Python `KeyError`, embedded as `none`. -/
def WIN_RESULTS (r : String) : Option ℕ :=
  if r = "W" then some 1
  else if r = "L" then some 0
  else if r = "D" then some 0
  else none

/-- The tree of `IntervalNode` objects.  Fields mirror the attributes set in
`IntervalNode.__init__`: `interval`, `wins`, `visits`, `samples`,
`uct_coeff`, `num_chunks`, `children`.  The `parent` attribute is
represented structurally (see the header comment). -/
inductive ITree : Type where
  | mk (interval : ℚ × ℚ) (wins visits : ℕ) (samples : List Sample)
       (uct_coeff : ℚ) (num_chunks : ℕ) (children : List (Option ITree))

def ITree.interval : ITree → ℚ × ℚ
  | .mk iv _ _ _ _ _ _ => iv

def ITree.wins : ITree → ℕ
  | .mk _ w _ _ _ _ _ => w

def ITree.visits : ITree → ℕ
  | .mk _ _ v _ _ _ _ => v

def ITree.samples : ITree → List Sample
  | .mk _ _ _ s _ _ _ => s

def ITree.uct_coeff : ITree → ℚ
  | .mk _ _ _ _ c _ _ => c

def ITree.num_chunks : ITree → ℕ
  | .mk _ _ _ _ _ n _ => n

def ITree.children : ITree → List (Option ITree)
  | .mk _ _ _ _ _ _ cs => cs

@[simp] theorem ITree.interval_mk (iv w v s c n cs) :
    (ITree.mk iv w v s c n cs).interval = iv := rfl

@[simp] theorem ITree.wins_mk (iv w v s c n cs) :
    (ITree.mk iv w v s c n cs).wins = w := rfl

@[simp] theorem ITree.visits_mk (iv w v s c n cs) :
    (ITree.mk iv w v s c n cs).visits = v := rfl

@[simp] theorem ITree.samples_mk (iv w v s c n cs) :
    (ITree.mk iv w v s c n cs).samples = s := rfl

@[simp] theorem ITree.uct_coeff_mk (iv w v s c n cs) :
    (ITree.mk iv w v s c n cs).uct_coeff = c := rfl

@[simp] theorem ITree.num_chunks_mk (iv w v s c n cs) :
    (ITree.mk iv w v s c n cs).num_chunks = n := rfl

@[simp] theorem ITree.children_mk (iv w v s c n cs) :
    (ITree.mk iv w v s c n cs).children = cs := rfl

/-- `IntervalNode.__init__(interval, uct_coeff, num_chunks)`: all child
slots start empty (`[None for i in range(num_chunks)]`), `wins = visits = 0`,
`samples = []`. -/
def IntervalNode.init (interval : ℚ × ℚ) (uct_coeff : ℚ) (num_chunks : ℕ) : ITree :=
  .mk interval 0 0 [] uct_coeff num_chunks (List.replicate num_chunks none)

/-- `interval_width` property: `self.interval[1] - self.interval[0]`. -/
def interval_width (t : ITree) : ℚ := t.interval.2 - t.interval.1

/-- `chunk_width` property: `self.interval_width / self.num_chunks`. -/
def chunk_width (t : ITree) : ℚ := interval_width t / (t.num_chunks : ℚ)

/-- Replace child slot `i` (the mutation `self.children[i] = child`,
together with `add_child`'s `child.parent = self`, which is structural in
this embedding). -/
def setChild (t : ITree) (i : ℕ) (c : ITree) : ITree :=
  .mk t.interval t.wins t.visits t.samples t.uct_coeff t.num_chunks
    (t.children.set i (some c))

/-- `IntervalNode.make_child_for_interval(interval_index)`: if the slot is
already occupied, return the existing child and leave the tree unchanged;
otherwise create `IntervalNode((lo + i*chunk_width, lo + (i+1)*chunk_width),
uct_coeff, num_chunks)`, store it in the slot and (via `add_child`) set its
parent to `self`.  Returns `(updated tree, returned child)`; `none` is the
`IndexError` raised when `interval_index` is out of range. -/
def make_child_for_interval (t : ITree) (i : ℕ) : Option (ITree × ITree) :=
  match t.children[i]? with
  | none => none
  | some (some c) => some (t, c)
  | some none =>
      some (setChild t i (IntervalNode.init
              (t.interval.1 + (i : ℚ) * chunk_width t,
               t.interval.1 + ((i : ℚ) + 1) * chunk_width t)
              t.uct_coeff t.num_chunks),
            IntervalNode.init
              (t.interval.1 + (i : ℚ) * chunk_width t,
               t.interval.1 + ((i : ℚ) + 1) * chunk_width t)
              t.uct_coeff t.num_chunks)

/-- `IntervalNode.has_child_for_interval(interval)`: the code returns
`self.children[interval] is None`.  `none` is the `IndexError` for an
out-of-range index. -/
def has_child_for_interval (t : ITree) (i : ℕ) : Option Bool :=
  (t.children[i]?).map Option.isNone

/-- `has_children` property: `len(self.children) > 0` (note: this counts
slots, not materialized children). -/
def has_children (t : ITree) : Bool := decide (0 < t.children.length)

/-- Node lookup along a path of child-slot indices; `nodeAt t [] = t`, and
a step fails (`none`) when the slot is out of range or empty. -/
def nodeAt : ITree → List ℕ → Option ITree
  | t, [] => some t
  | t, i :: p =>
      match t.children[i]? with
      | some (some c) => nodeAt c p
      | _ => none

/-- The single-node part of `propegate_result`: `visits += 1`,
`wins += WIN_RESULTS[result[2]]`, `samples.append(result)`.  `none` is the
`KeyError` raised when the outcome string is not a key of `WIN_RESULTS`. -/
def localUpdate (t : ITree) (s : Sample) : Option ITree :=
  match WIN_RESULTS s.2.2 with
  | none => none
  | some w =>
      some (.mk t.interval (t.wins + w) (t.visits + 1) (t.samples ++ [s])
        t.uct_coeff t.num_chunks t.children)

/-- `IntervalNode.propegate_result(result)` invoked on the node addressed by
path `p`: the Python code updates the node and then recurses into
`self.parent` until the parentless root; the net effect is that every node
on the root-to-target path receives `localUpdate`, which is what this
top-down embedding computes. -/
def propagateAt : ITree → List ℕ → Sample → Option ITree
  | t, [], s => localUpdate t s
  | t, i :: p, s =>
      match localUpdate t s with
      | none => none
      | some t1 =>
          match t.children[i]? with
          | some (some c) =>
              match propagateAt c p s with
              | some c' => some (setChild t1 i c')
              | none => none
          | _ => none

/-- The comparison step of Python 2 `max(l, key=key)`: the running best is
replaced only when a strictly larger key appears. -/
def maxStep {α β : Type} [LinearOrder β] (key : α → β) (b c : α) : α :=
  if key b < key c then c else b

/-- Python 2 `max(l, key=key)`: scan left to right keeping the current
best, replacing it only when a strictly larger key appears (so ties go to
the first occurrence).  `none` is the `ValueError` raised on an empty
sequence — both call sites guard against it, returning `None` instead. -/
def argmaxKey {α β : Type} [LinearOrder β] (key : α → β) : List α → Option α
  | [] => none
  | x :: xs => some (xs.foldl (maxStep key) x)

theorem argmaxKey_isSome_iff {α β : Type} [LinearOrder β] (key : α → β)
    (l : List α) : (argmaxKey key l).isSome ↔ l ≠ [] := by
  cases l <;> simp [argmaxKey]

/-- The fold underlying `argmaxKey` returns an element of `b :: xs`. -/
theorem argmax_fold_mem {α β : Type} [LinearOrder β] (key : α → β) :
    ∀ (xs : List α) (b : α), xs.foldl (maxStep key) b ∈ b :: xs := by
  intro xs
  induction xs with
  | nil => intro b; simp
  | cons x xs ih =>
      intro b
      simp only [List.foldl_cons, maxStep]
      by_cases hbx : key b < key x
      · rw [if_pos hbx]
        exact List.mem_cons_of_mem b (ih x)
      · rw [if_neg hbx]
        rcases List.mem_cons.mp (ih b) with h | h
        · rw [h]; exact List.mem_cons_self b (x :: xs)
        · exact List.mem_cons_of_mem b (List.mem_cons_of_mem x h)

theorem argmaxKey_mem {α β : Type} [LinearOrder β] (key : α → β)
    {l : List α} {c : α} (h : argmaxKey key l = some c) : c ∈ l := by
  cases l with
  | nil => simp [argmaxKey] at h
  | cons x xs =>
      simp only [argmaxKey, Option.some.injEq] at h
      exact h ▸ argmax_fold_mem key xs x

/-- Full specification of the fold underlying `argmaxKey`: the result `r`
splits `b :: xs` as `l1 ++ r :: l2` where everything before `r` has a
strictly smaller key (first-occurrence tie-breaking) and everything after
has a key `≤ key r` (maximality). -/
theorem argmax_fold_spec {α β : Type} [LinearOrder β] (key : α → β) :
    ∀ (xs : List α) (b : α),
      ∃ l1 l2, b :: xs = l1 ++ xs.foldl (maxStep key) b :: l2 ∧
        (∀ y ∈ l1, key y < key (xs.foldl (maxStep key) b)) ∧
        (∀ y ∈ l2, key y ≤ key (xs.foldl (maxStep key) b)) := by
  intro xs
  induction xs with
  | nil =>
      intro b
      exact ⟨[], [], by simp, by simp, by simp⟩
  | cons x xs ih =>
      intro b
      simp only [List.foldl_cons, maxStep]
      by_cases hbx : key b < key x
      · -- the running best is replaced by `x`
        rw [if_pos hbx]
        obtain ⟨l1, l2, hsplit, hlt, hle⟩ := ih x
        refine ⟨b :: l1, l2, by rw [List.cons_append, ← hsplit], ?_, hle⟩
        intro y hy
        rcases List.mem_cons.mp hy with h | h
        · subst h
          -- key b < key x ≤ key r, where r is the fold result
          have hx : key x ≤ key (xs.foldl (maxStep key) x) := by
            rcases l1 with _ | ⟨z, l1'⟩
            · rw [List.nil_append] at hsplit
              injection hsplit with h1 _
              exact h1 ▸ le_refl _
            · rw [List.cons_append] at hsplit
              injection hsplit with h1 _
              exact le_of_lt (h1 ▸ hlt z (List.mem_cons_self z l1'))
          exact lt_of_lt_of_le hbx hx
        · exact hlt y h
      · -- the running best stays `b`
        rw [if_neg hbx]
        obtain ⟨l1, l2, hsplit, hlt, hle⟩ := ih b
        rcases l1 with _ | ⟨z, l1'⟩
        · -- fold result is `b` itself
          rw [List.nil_append] at hsplit
          injection hsplit with h1 h2
          refine ⟨[], x :: l2, ?_, by simp, ?_⟩
          · rw [List.nil_append, ← h1, ← h2]
          · intro y hy
            rcases List.mem_cons.mp hy with h | h
            · subst h; exact h1 ▸ le_of_not_lt hbx
            · exact hle y h
        · -- fold result is inside `xs`; `b` heads the strict part
          rw [List.cons_append] at hsplit
          injection hsplit with h1 h2
          have hbr : key b < key (xs.foldl (maxStep key) b) :=
            h1 ▸ hlt z (List.mem_cons_self z l1')
          refine ⟨b :: x :: l1', l2, ?_, ?_, hle⟩
          · rw [List.cons_append, List.cons_append, ← h2]
          · intro y hy
            rcases List.mem_cons.mp hy with h | h
            · subst h; exact hbr
            · rcases List.mem_cons.mp h with h | h
              · subst h; exact lt_of_le_of_lt (le_of_not_lt hbx) hbr
              · exact hlt y (List.mem_cons_of_mem z h)

/-- Specification of `argmaxKey` on a nonempty list. -/
theorem argmaxKey_spec {α β : Type} [LinearOrder β] (key : α → β)
    {l : List α} (hl : l ≠ []) :
    ∃ c l1 l2, argmaxKey key l = some c ∧ l = l1 ++ c :: l2 ∧
      (∀ y ∈ l1, key y < key c) ∧ (∀ y ∈ l2, key y ≤ key c) := by
  cases l with
  | nil => exact absurd rfl hl
  | cons x xs =>
      obtain ⟨l1, l2, hsplit, hlt, hle⟩ := argmax_fold_spec key xs x
      exact ⟨_, l1, l2, rfl, hsplit, hlt, hle⟩

theorem sizeOf_lt_of_mem_children {c t : ITree} (h : some c ∈ t.children) :
    sizeOf c < sizeOf t := by
  cases t with
  | mk iv w v s uc nc cs =>
      simp only [ITree.children_mk] at h
      have h1 : sizeOf (some c) < sizeOf cs := List.sizeOf_lt_of_mem h
      simp only [Option.some.sizeOf_spec] at h1
      simp only [ITree.mk.sizeOf_spec]
      omega

/-- `IntervalNode.most_visited_child()`: filter out the empty slots and take
the Python `max` by `visits` (`None` on an all-empty slot array). -/
def most_visited_child (t : ITree) : Option ITree :=
  argmaxKey (fun c : ITree => c.visits) (t.children.filterMap id)

theorem sizeOf_lt_of_most_visited {c t : ITree}
    (h : most_visited_child t = some c) : sizeOf c < sizeOf t := by
  have hmem : c ∈ t.children.filterMap id := argmaxKey_mem _ h
  have : some c ∈ t.children := by
    rcases List.mem_filterMap.mp hmem with ⟨o, ho, hoc⟩
    cases o with
    | none => simp at hoc
    | some d => simp at hoc; exact hoc ▸ ho
  exact sizeOf_lt_of_mem_children this

/-- `IntervalNode.find_best_interval()`: follow `most_visited_child` while
`has_children` holds and a materialized child exists; return the interval of
the node where the descent stops. -/
def find_best_interval (t : ITree) : ℚ × ℚ :=
  if has_children t then
    match h : most_visited_child t with
    | some c => find_best_interval c
    | none => t.interval
  else t.interval
termination_by sizeOf t
decreasing_by exact sizeOf_lt_of_most_visited h

/-- `IntervalNode.is_root()`: `self.interval is None or self.parent is
None`.  Every node the program constructs is given a concrete interval
(the root gets the caller-supplied domain in `tune_params`, children get
theirs in `make_child_for_interval`), so the first disjunct is `False` and
the check reduces to parent-absence.  In the path addressing of this
embedding the parent of the node at `p` is the node at `p.dropLast` when
`p ≠ []`, and absent when `p = []`. -/
def is_root (parent? : Option ITree) : Bool := parent?.isNone

/-- The parent object of the node addressed by path `p`. -/
def parentAt (t : ITree) (p : List ℕ) : Option ITree :=
  if p = [] then none else nodeAt t p.dropLast

/-- The numeric branch of the `uct_value` property:
`float(wins)/float(visits) + uct_coeff * sqrt(log(parent.visits) / visits)`. -/
noncomputable def uctKey (parentVisits : ℕ) (c : ITree) : ℝ :=
  (c.wins : ℝ) / (c.visits : ℝ) +
    (c.uct_coeff : ℝ) * Real.sqrt (Real.log (parentVisits : ℝ) / (c.visits : ℝ))

/-- `uct_value` property: `None` on a root node (no parent), otherwise the
UCT score computed from the parent's visit count. -/
noncomputable def uct_value (n : ITree) (parent? : Option ITree) : Option ℝ :=
  match parent? with
  | none => none
  | some par => some (uctKey par.visits n)

/-- The key of child slot `i` as used by `best_child`'s `max`: in the branch
where `max` runs, every slot holds a materialized child whose `parent`
attribute is the node itself (installed by `add_child`), so its `uct_value`
is `uctKey self.visits child`.  The fallback `0` is never consulted: `max`
is reached only when no slot is empty, and it only examines indices below
`len(children)`. -/
noncomputable def slotKey (t : ITree) (i : ℕ) : ℝ :=
  match t.children[i]? with
  | some (some c) => uctKey t.visits c
  | _ => 0

/-- `IntervalNode.best_child()`: `None` when there are no slots or some slot
is still empty; otherwise the Python `max(self.children, key=uct_value)`,
which this embedding expresses as the first-maximal slot index (slot order =
list order, so the identity of the returned object is its slot index). -/
noncomputable def best_child (t : ITree) : Option ℕ :=
  if t.children.length = 0 then none
  else if 0 < (t.children.filter (fun c => c.isNone)).length then none
  else argmaxKey (slotKey t) (List.range t.children.length)

/-- Claim C10: `has_child_for_interval(i)` returns `True` exactly when slot
`i` is empty (no child materialized there) and `False` exactly when a child
is materialized — despite its name and docstring it reports absence. -/
theorem C10_has_child_reports_absence (t : ITree) (i : ℕ)
    (h : i < t.children.length) :
    (has_child_for_interval t i = some true ↔ t.children[i]? = some none) ∧
    (has_child_for_interval t i = some false ↔
      ∃ c, t.children[i]? = some (some c)) := by
  obtain ⟨o, ho⟩ : ∃ o, t.children[i]? = some o :=
    ⟨t.children[i], List.getElem?_eq_getElem h⟩
  cases o with
  | none => simp [has_child_for_interval, ho]
  | some c => simp [has_child_for_interval, ho]

/-- Shared concrete tree used by witnesses: a freshly constructed root over
the domain `(0, 1000)` with branching factor 10, as built by `tune_params`. -/
def sampleRoot : ITree := IntervalNode.init (0, 1000) (3/10) 10

/-- Witness for C10 at a concrete input: the fresh root's slot 0 is empty
and `has_child_for_interval` reports `True` for it. -/
theorem C10_has_child_reports_absence_witness :
    (has_child_for_interval sampleRoot 0 = some true ↔
      sampleRoot.children[0]? = some none) ∧
    (has_child_for_interval sampleRoot 0 = some false ↔
      ∃ c, sampleRoot.children[0]? = some (some c)) :=
  C10_has_child_reports_absence sampleRoot 0 (by decide)

/-- Left endpoint of child slot `j`, as computed in
`make_child_for_interval`: `interval[0] + j * chunk_width`. -/
def childLow (t : ITree) (j : ℕ) : ℚ := t.interval.1 + (j : ℚ) * chunk_width t

/-- Right endpoint of child slot `j`, as computed in
`make_child_for_interval`: `interval[0] + (j+1) * chunk_width`. -/
def childHigh (t : ITree) (j : ℕ) : ℚ := t.interval.1 + ((j : ℚ) + 1) * chunk_width t

/-- Claim C4: the child materialized at slot `i` receives the interval
`(lo + i·(hi−lo)/N, lo + (i+1)·(hi−lo)/N)`, and the `N` slot intervals tile
`(lo, hi)` exactly: slot 0 starts at `lo`, slot `N−1` ends at `hi`, and
consecutive slots share an endpoint (no gap, no overlap; exact over `ℚ`). -/
theorem C4_children_tile_interval (t : ITree) (i : ℕ)
    (hN : 0 < t.num_chunks) (hempty : t.children[i]? = some none) :
    ∃ t' c, make_child_for_interval t i = some (t', c) ∧
      c.interval = (childLow t i, childHigh t i) ∧
      childLow t i
        = t.interval.1 + (i : ℚ) * ((t.interval.2 - t.interval.1) / (t.num_chunks : ℚ)) ∧
      childHigh t i
        = t.interval.1 + ((i : ℚ) + 1) * ((t.interval.2 - t.interval.1) / (t.num_chunks : ℚ)) ∧
      childLow t 0 = t.interval.1 ∧
      childHigh t (t.num_chunks - 1) = t.interval.2 ∧
      (∀ j : ℕ, childHigh t j = childLow t (j + 1)) := by
  have hmk : make_child_for_interval t i =
      some (setChild t i (IntervalNode.init (childLow t i, childHigh t i)
              t.uct_coeff t.num_chunks),
            IntervalNode.init (childLow t i, childHigh t i)
              t.uct_coeff t.num_chunks) := by
    simp only [make_child_for_interval, hempty, childLow, childHigh]
  refine ⟨_, _, hmk, rfl, rfl, rfl, ?_, ?_, ?_⟩
  · simp [childLow]
  · have hne : ((t.num_chunks : ℚ)) ≠ 0 := by
      exact_mod_cast Nat.pos_iff_ne_zero.mp hN
    have hcast : (((t.num_chunks - 1 : ℕ) : ℚ)) = (t.num_chunks : ℚ) - 1 :=
      Nat.cast_sub hN
    simp only [childHigh, chunk_width, interval_width, hcast]
    field_simp
  · intro j
    simp only [childHigh, childLow]
    push_cast
    ring

/-- Witness for C4 at a concrete input (Scenario A of the spec): expanding
slot 3 of a fresh root over `(0, 1000)` with branching factor 10. -/
theorem C4_children_tile_interval_witness :
    ∃ t' c, make_child_for_interval sampleRoot 3 = some (t', c) ∧
      c.interval = (childLow sampleRoot 3, childHigh sampleRoot 3) ∧
      childLow sampleRoot 3
        = sampleRoot.interval.1 + (3 : ℚ) *
            ((sampleRoot.interval.2 - sampleRoot.interval.1) / (sampleRoot.num_chunks : ℚ)) ∧
      childHigh sampleRoot 3
        = sampleRoot.interval.1 + ((3 : ℚ) + 1) *
            ((sampleRoot.interval.2 - sampleRoot.interval.1) / (sampleRoot.num_chunks : ℚ)) ∧
      childLow sampleRoot 0 = sampleRoot.interval.1 ∧
      childHigh sampleRoot (sampleRoot.num_chunks - 1) = sampleRoot.interval.2 ∧
      (∀ j : ℕ, childHigh sampleRoot j = childLow sampleRoot (j + 1)) :=
  C4_children_tile_interval sampleRoot 3 (by decide) (by rfl)

/-- Claim C6: `make_child_for_interval` is idempotent.  If slot `i` already
holds a child the call returns that child and leaves the tree unchanged; a
first call on an empty slot constructs the child with the slot's interval,
stores it in slot `i` (which in this embedding is what makes the expanded
node the child's parent), and a repeated call returns the very same child
without modifying the tree again. -/
theorem C6_expand_idempotent (t : ITree) (i : ℕ) :
    (∀ c, t.children[i]? = some (some c) →
      make_child_for_interval t i = some (t, c)) ∧
    (t.children[i]? = some none →
      ∃ t' c, make_child_for_interval t i = some (t', c) ∧
        c = IntervalNode.init (childLow t i, childHigh t i)
              t.uct_coeff t.num_chunks ∧
        t' = setChild t i c ∧
        t'.children[i]? = some (some c) ∧
        make_child_for_interval t' i = some (t', c)) := by
  constructor
  · intro c h
    simp only [make_child_for_interval, h]
  · intro h
    have hi : i < t.children.length := by
      by_contra hge
      rw [List.getElem?_eq_none (Nat.le_of_not_lt hge)] at h
      exact Option.noConfusion h
    have hset : (setChild t i (IntervalNode.init (childLow t i, childHigh t i)
        t.uct_coeff t.num_chunks)).children[i]?
        = some (some (IntervalNode.init (childLow t i, childHigh t i)
            t.uct_coeff t.num_chunks)) := by
      simp [setChild, List.getElem?_set_self hi]
    refine ⟨_, _, ?_, rfl, rfl, hset, ?_⟩
    · simp only [make_child_for_interval, h]
      rfl
    · simp only [make_child_for_interval, hset]

/-- Witness for C6 at a concrete input: expanding slot 0 of the fresh root
twice yields the same child both times. -/
theorem C6_expand_idempotent_witness :
    ∃ t' c, make_child_for_interval sampleRoot 0 = some (t', c) ∧
      c = IntervalNode.init (childLow sampleRoot 0, childHigh sampleRoot 0)
            sampleRoot.uct_coeff sampleRoot.num_chunks ∧
      t' = setChild sampleRoot 0 c ∧
      t'.children[0]? = some (some c) ∧
      make_child_for_interval t' 0 = some (t', c) :=
  (C6_expand_idempotent sampleRoot 0).2 (by rfl)

/-- `q` addresses the propagation target or one of its ancestors: `q` is an
initial segment of the target path `p`. -/
def PathInit (q p : List ℕ) : Prop := ∃ r, q ++ r = p

theorem pathInit_nil (p : List ℕ) : PathInit [] p := ⟨p, rfl⟩

theorem pathInit_cons_iff (j i : ℕ) (q p : List ℕ) :
    PathInit (j :: q) (i :: p) ↔ j = i ∧ PathInit q p := by
  constructor
  · rintro ⟨r, hr⟩
    rw [List.cons_append] at hr
    injection hr with h1 h2
    exact ⟨h1, r, h2⟩
  · rintro ⟨rfl, r, hr⟩
    exact ⟨r, by rw [List.cons_append, hr]⟩

theorem not_pathInit_cons_nil (j : ℕ) (q : List ℕ) : ¬ PathInit (j :: q) [] := by
  rintro ⟨r, hr⟩
  simp at hr

@[simp] theorem nodeAt_nil (t : ITree) : nodeAt t [] = some t := rfl

theorem nodeAt_cons_none (t : ITree) (j : ℕ) (q : List ℕ)
    (h : t.children[j]? = none) : nodeAt t (j :: q) = none := by
  simp [nodeAt, h]

theorem nodeAt_cons_some_none (t : ITree) (j : ℕ) (q : List ℕ)
    (h : t.children[j]? = some none) : nodeAt t (j :: q) = none := by
  simp [nodeAt, h]

theorem nodeAt_cons_some_some (t : ITree) (j : ℕ) (q : List ℕ) (c : ITree)
    (h : t.children[j]? = some (some c)) : nodeAt t (j :: q) = nodeAt c q := by
  simp [nodeAt, h]

/-- The node produced by one `propegate_result` update step. -/
def bumped (t : ITree) (s : Sample) (w : ℕ) : ITree :=
  .mk t.interval (t.wins + w) (t.visits + 1) (t.samples ++ [s])
    t.uct_coeff t.num_chunks t.children

theorem localUpdate_eq (t : ITree) (s : Sample) (w : ℕ)
    (hw : WIN_RESULTS s.2.2 = some w) : localUpdate t s = some (bumped t s w) := by
  simp [localUpdate, hw, bumped]

@[simp] theorem propagateAt_nil (t : ITree) (s : Sample) :
    propagateAt t [] s = localUpdate t s := rfl

theorem propagateAt_cons_eq (t : ITree) (i : ℕ) (p : List ℕ) (s : Sample)
    (t1 c c' : ITree) (h1 : localUpdate t s = some t1)
    (hc : t.children[i]? = some (some c)) (hp : propagateAt c p s = some c') :
    propagateAt t (i :: p) s = some (setChild t1 i c') := by
  simp [propagateAt, h1, hc, hp]

/-- Core specification of backpropagation: when the outcome string is a key
of `WIN_RESULTS` (with value `w`) and the target path is valid, propagation
succeeds, every node on the root-to-target path gains `w` wins, one visit
and the appended sample while keeping its other fields, and every node off
that path is untouched. -/
theorem propagate_spec (s : Sample) (w : ℕ) (hw : WIN_RESULTS s.2.2 = some w) :
    ∀ (p : List ℕ) (t : ITree), (nodeAt t p).isSome →
      ∃ t', propagateAt t p s = some t' ∧
        (∀ q n, PathInit q p → nodeAt t q = some n →
          ∃ n', nodeAt t' q = some n' ∧
            n'.interval = n.interval ∧ n'.wins = n.wins + w ∧
            n'.visits = n.visits + 1 ∧ n'.samples = n.samples ++ [s] ∧
            n'.uct_coeff = n.uct_coeff ∧ n'.num_chunks = n.num_chunks) ∧
        (∀ q, ¬ PathInit q p → nodeAt t' q = nodeAt t q) := by
  intro p
  induction p with
  | nil =>
      intro t _
      refine ⟨bumped t s w, by simp [localUpdate_eq t s w hw], ?_, ?_⟩
      · intro q n hq hn
        obtain ⟨r, hr⟩ := hq
        have hq0 : q = [] := by
          cases q with
          | nil => rfl
          | cons a as => simp at hr
        subst hq0
        rw [nodeAt_nil] at hn
        injection hn with hn
        subst hn
        exact ⟨bumped t s w, rfl, rfl, rfl, rfl, rfl, rfl, rfl⟩
      · intro q hq
        cases q with
        | nil => exact absurd (pathInit_nil []) hq
        | cons j q' =>
            rcases hcj : t.children[j]? with _ | o
            · rw [nodeAt_cons_none _ _ _ hcj, nodeAt_cons_none]
              simpa [bumped] using hcj
            · rcases o with _ | c
              · rw [nodeAt_cons_some_none _ _ _ hcj, nodeAt_cons_some_none]
                simpa [bumped] using hcj
              · rw [nodeAt_cons_some_some _ _ _ _ hcj, nodeAt_cons_some_some]
                simpa [bumped] using hcj
  | cons i p ih =>
      intro t ht
      rcases hc : t.children[i]? with _ | o
      · rw [nodeAt_cons_none _ _ _ hc] at ht
        simp at ht
      rcases o with _ | c
      · rw [nodeAt_cons_some_none _ _ _ hc] at ht
        simp at ht
      rw [nodeAt_cons_some_some _ _ _ _ hc] at ht
      obtain ⟨c', hpc, hOn, hOff⟩ := ih c ht
      have hilen : i < t.children.length := (List.getElem?_eq_some_iff.mp hc).1
      have hset : (setChild (bumped t s w) i c').children[i]? = some (some c') := by
        have : i < (bumped t s w).children.length := by simpa [bumped] using hilen
        simp [setChild, List.getElem?_set_self this]
      have hsetne : ∀ j, j ≠ i →
          (setChild (bumped t s w) i c').children[j]? = t.children[j]? := by
        intro j hj
        simp [setChild, bumped, List.getElem?_set_ne (Ne.symm hj)]
      refine ⟨setChild (bumped t s w) i c',
        propagateAt_cons_eq t i p s _ c c' (localUpdate_eq t s w hw) hc hpc, ?_, ?_⟩
      · intro q n hq hn
        cases q with
        | nil =>
            rw [nodeAt_nil] at hn
            injection hn with hn
            subst hn
            exact ⟨setChild (bumped t s w) i c', rfl, rfl, rfl, rfl, rfl, rfl, rfl⟩
        | cons j q' =>
            obtain ⟨hj, hq'⟩ := (pathInit_cons_iff j i q' p).mp hq
            subst hj
            rw [nodeAt_cons_some_some _ _ _ _ hc] at hn
            obtain ⟨n', hn', hfields⟩ := hOn q' n hq' hn
            exact ⟨n', by rw [nodeAt_cons_some_some _ _ _ _ hset]; exact hn', hfields⟩
      · intro q hq
        cases q with
        | nil => exact absurd (pathInit_nil _) hq
        | cons j q' =>
            by_cases hj : j = i
            · subst hj
              have hq' : ¬ PathInit q' p := fun h =>
                hq ((pathInit_cons_iff j j q' p).mpr ⟨rfl, h⟩)
              rw [nodeAt_cons_some_some _ _ _ _ hset,
                nodeAt_cons_some_some _ _ _ _ hc]
              exact hOff q' hq'
            · rcases hcj : t.children[j]? with _ | o
              · rw [nodeAt_cons_none _ _ _ hcj, nodeAt_cons_none]
                rw [hsetne j hj]
                exact hcj
              · rcases o with _ | d
                · rw [nodeAt_cons_some_none _ _ _ hcj, nodeAt_cons_some_none]
                  rw [hsetne j hj]
                  exact hcj
                · rw [nodeAt_cons_some_some _ _ _ _ hcj, nodeAt_cons_some_some]
                  rw [hsetne j hj]
                  exact hcj

/-- Claim C1: with a record `(paramName, sampledValue, outcomeCategory)`
whose category is one of `'W'`, `'L'`, `'D'`, `propegate_result` on the node
at path `p` increments `visits` by exactly 1 on that node and on every
ancestor up to and including the root (the initial segments of `p`),
increments `wins` by exactly 1 on those nodes iff the category is `'W'`
(`'L'` and `'D'` leave `wins` unchanged), appends the record to `samples`,
and leaves every other node untouched. -/
theorem C1_propagate_increments_path (t : ITree) (p : List ℕ) (name : String)
    (v : ℚ) (oc : String) (hoc : oc = "W" ∨ oc = "L" ∨ oc = "D")
    (hpath : (nodeAt t p).isSome) :
    ∃ t', propagateAt t p (name, v, oc) = some t' ∧
      (∀ q n, PathInit q p → nodeAt t q = some n →
        ∃ n', nodeAt t' q = some n' ∧
          n'.visits = n.visits + 1 ∧
          n'.wins = n.wins + (if oc = "W" then 1 else 0) ∧
          n'.samples = n.samples ++ [(name, v, oc)]) ∧
      (∀ q, ¬ PathInit q p → nodeAt t' q = nodeAt t q) := by
  have hw : WIN_RESULTS oc = some (if oc = "W" then 1 else 0) := by
    rcases hoc with rfl | rfl | rfl <;> simp [WIN_RESULTS]
  obtain ⟨t', h1, h2, h3⟩ := propagate_spec (name, v, oc) _ hw p t hpath
  refine ⟨t', h1, ?_, h3⟩
  intro q n hq hn
  obtain ⟨n', hn', _, hwins, hvis, hsamp, _, _⟩ := h2 q n hq hn
  exact ⟨n', hn', hvis, hwins, hsamp⟩

/-- A depth-one concrete tree used by witnesses: the fresh root with a
child attached in slot 0 (the tree produced by expanding slot 0). -/
def sampleChild : ITree := IntervalNode.init (0, 100) (3/10) 10

def sampleTree : ITree := setChild sampleRoot 0 sampleChild

/-- Witness for C1 at a concrete input: propagating a win from the child in
slot 0 of the depth-one tree. -/
theorem C1_propagate_increments_path_witness :
    ∃ t', propagateAt sampleTree [0] ("k", 50, "W") = some t' ∧
      (∀ q n, PathInit q [0] → nodeAt sampleTree q = some n →
        ∃ n', nodeAt t' q = some n' ∧
          n'.visits = n.visits + 1 ∧
          n'.wins = n.wins + (if ("W" : String) = "W" then 1 else 0) ∧
          n'.samples = n.samples ++ [("k", 50, "W")]) ∧
      (∀ q, ¬ PathInit q [0] → nodeAt t' q = nodeAt sampleTree q) :=
  C1_propagate_increments_path sampleTree [0] "k" 50 "W" (Or.inl rfl) (by rfl)

/-- The `0 ≤ wins ≤ visits` invariant, at every node of the tree (`wins`
and `visits` are `ℕ` here, matching the non-negative Python counters). -/
def WinsLeVisits (t : ITree) : Prop :=
  ∀ q n, nodeAt t q = some n → n.wins ≤ n.visits

theorem winsLeVisits_init (iv : ℚ × ℚ) (c : ℚ) (nc : ℕ) :
    WinsLeVisits (IntervalNode.init iv c nc) := by
  intro q n hn
  cases q with
  | nil =>
      rw [nodeAt_nil] at hn
      injection hn with hn
      subst hn
      simp [IntervalNode.init]
  | cons j q' =>
      have hj : (IntervalNode.init iv c nc).children[j]? = none ∨
          (IntervalNode.init iv c nc).children[j]? = some none := by
        simp only [IntervalNode.init, ITree.children_mk, List.getElem?_replicate]
        by_cases h : j < nc <;> simp [h]
      rcases hj with hj | hj
      · rw [nodeAt_cons_none _ _ _ hj] at hn
        exact Option.noConfusion hn
      · rw [nodeAt_cons_some_none _ _ _ hj] at hn
        exact Option.noConfusion hn

theorem WIN_RESULTS_le_one {r : String} {w : ℕ} (h : WIN_RESULTS r = some w) :
    w ≤ 1 := by
  by_cases h1 : r = "W"
  · simp [WIN_RESULTS, h1] at h
    omega
  · by_cases h2 : r = "L"
    · simp [WIN_RESULTS, h1, h2] at h
      omega
    · by_cases h3 : r = "D"
      · simp [WIN_RESULTS, h1, h2, h3] at h
        omega
      · simp [WIN_RESULTS, h1, h2, h3] at h

/-- A successful propagation pins down the `WIN_RESULTS` value and the
validity of the target path. -/
theorem propagateAt_some_inv :
    ∀ (p : List ℕ) (t : ITree) (s : Sample) (t' : ITree),
      propagateAt t p s = some t' →
      ∃ w, WIN_RESULTS s.2.2 = some w ∧ (nodeAt t p).isSome := by
  intro p
  induction p with
  | nil =>
      intro t s t' h
      rw [propagateAt_nil] at h
      unfold localUpdate at h
      rcases hw : WIN_RESULTS s.2.2 with _ | w
      · rw [hw] at h; exact Option.noConfusion h
      · exact ⟨w, by simp [hw], by simp⟩
  | cons i p ih =>
      intro t s t' h
      rcases hu : localUpdate t s with _ | t1
      · simp only [propagateAt, hu] at h
        exact Option.noConfusion h
      · rcases hc : t.children[i]? with _ | o
        · simp only [propagateAt, hu, hc] at h
          exact Option.noConfusion h
        · rcases o with _ | c
          · simp only [propagateAt, hu, hc] at h
            exact Option.noConfusion h
          · rcases hp : propagateAt c p s with _ | c'
            · simp only [propagateAt, hu, hc, hp] at h
              exact Option.noConfusion h
            · obtain ⟨w, hw, hsome⟩ := ih c s c' hp
              exact ⟨w, hw, by rw [nodeAt_cons_some_some _ _ _ _ hc]; exact hsome⟩

theorem nodeAt_isSome_of_pathInit {t : ITree} {p q : List ℕ}
    (hp : (nodeAt t p).isSome) (hq : PathInit q p) : (nodeAt t q).isSome := by
  obtain ⟨r, hr⟩ := hq
  subst hr
  induction q generalizing t with
  | nil => simp
  | cons j q' ih =>
      rcases hc : t.children[j]? with _ | o
      · rw [List.cons_append, nodeAt_cons_none _ _ _ hc] at hp
        simp at hp
      rcases o with _ | c
      · rw [List.cons_append, nodeAt_cons_some_none _ _ _ hc] at hp
        simp at hp
      rw [List.cons_append, nodeAt_cons_some_some _ _ _ _ hc] at hp
      rw [nodeAt_cons_some_some _ _ _ _ hc]
      exact ih hp

/-- Claim C5: `wins` and `visits` start at 0 at construction; a successful
backpropagation (which requires a win/loss/draw outcome) preserves
`0 ≤ wins ≤ visits` everywhere, increases both counters monotonically, and
never increments `wins` by more than it increments `visits`; expansion also
preserves the invariant. -/
theorem C5_zero_le_wins_le_visits :
    (∀ iv c nc, (IntervalNode.init iv c nc).wins = 0 ∧
      (IntervalNode.init iv c nc).visits = 0) ∧
    (∀ t p s t', propagateAt t p s = some t' →
      (WinsLeVisits t → WinsLeVisits t') ∧
      (∀ q n n', nodeAt t q = some n → nodeAt t' q = some n' →
        n.wins ≤ n'.wins ∧ n.visits ≤ n'.visits ∧
        n'.wins - n.wins ≤ n'.visits - n.visits)) ∧
    (∀ t i t' c, make_child_for_interval t i = some (t', c) →
      WinsLeVisits t → WinsLeVisits t') := by
  refine ⟨fun iv c nc => ⟨rfl, rfl⟩, ?_, ?_⟩
  · intro t p s t' hprop
    obtain ⟨w, hw, hpath⟩ := propagateAt_some_inv p t s t' hprop
    obtain ⟨t'', h1, h2, h3⟩ := propagate_spec s w hw p t hpath
    rw [hprop] at h1
    injection h1 with h1
    subst h1
    have hw1 : w ≤ 1 := WIN_RESULTS_le_one hw
    constructor
    · intro hinv q n' hn'
      by_cases hq : PathInit q p
      · obtain ⟨n, hn⟩ := Option.isSome_iff_exists.mp
          (nodeAt_isSome_of_pathInit hpath hq)
        obtain ⟨n'', hn'', _, hwins, hvis, _, _, _⟩ := h2 q n hq hn
        rw [hn'] at hn''
        injection hn'' with hn''
        subst hn''
        have := hinv q n hn
        omega
      · rw [h3 q hq] at hn'
        exact hinv q n' hn'
    · intro q n n' hn hn'
      by_cases hq : PathInit q p
      · obtain ⟨n'', hn'', _, hwins, hvis, _, _, _⟩ := h2 q n hq hn
        rw [hn'] at hn''
        injection hn'' with hn''
        subst hn''
        omega
      · rw [h3 q hq, hn] at hn'
        injection hn' with hn'
        subst hn'
        omega
  · intro t i t' c hmk hinv
    unfold make_child_for_interval at hmk
    rcases hc : t.children[i]? with _ | o
    · rw [hc] at hmk; exact Option.noConfusion hmk
    rcases o with _ | c0
    · -- slot empty: t' = setChild t i (fresh node)
      rw [hc] at hmk
      injection hmk with hmk
      have ht' : t' = setChild t i (IntervalNode.init
          (t.interval.1 + (i : ℚ) * chunk_width t,
           t.interval.1 + ((i : ℚ) + 1) * chunk_width t)
          t.uct_coeff t.num_chunks) := (congrArg Prod.fst hmk).symm
      subst ht'
      intro q n hn
      cases q with
      | nil =>
          rw [nodeAt_nil] at hn
          injection hn with hn
          subst hn
          simpa [setChild] using hinv [] t (by rfl)
      | cons j q' =>
          by_cases hj : j = i
          · subst hj
            have hjlen : j < t.children.length := (List.getElem?_eq_some_iff.mp hc).1
            have hset : (setChild t j (IntervalNode.init
                (t.interval.1 + (j : ℚ) * chunk_width t,
                 t.interval.1 + ((j : ℚ) + 1) * chunk_width t)
                t.uct_coeff t.num_chunks)).children[j]? = some (some (IntervalNode.init
                (t.interval.1 + (j : ℚ) * chunk_width t,
                 t.interval.1 + ((j : ℚ) + 1) * chunk_width t)
                t.uct_coeff t.num_chunks)) := by
              simp [setChild, List.getElem?_set_self hjlen]
            rw [nodeAt_cons_some_some _ _ _ _ hset] at hn
            exact winsLeVisits_init _ _ _ q' n hn
          · have hset : (setChild t i (IntervalNode.init
                (t.interval.1 + (i : ℚ) * chunk_width t,
                 t.interval.1 + ((i : ℚ) + 1) * chunk_width t)
                t.uct_coeff t.num_chunks)).children[j]? = t.children[j]? := by
              simp [setChild, List.getElem?_set_ne (Ne.symm hj)]
            rcases hcj : t.children[j]? with _ | o
            · rw [nodeAt_cons_none _ _ _ (hset.trans hcj)] at hn
              exact Option.noConfusion hn
            rcases o with _ | d
            · rw [nodeAt_cons_some_none _ _ _ (hset.trans hcj)] at hn
              exact Option.noConfusion hn
            · rw [nodeAt_cons_some_some _ _ _ _ (hset.trans hcj)] at hn
              exact hinv (j :: q') n
                (by rw [nodeAt_cons_some_some _ _ _ _ hcj]; exact hn)
    · -- slot full: t' = t
      rw [hc] at hmk
      injection hmk with hmk
      have ht' : t' = t := (congrArg Prod.fst hmk).symm
      subst ht'
      exact hinv

/-- The tree after propagating one win into the fresh root. -/
def sampleRootUpdated : ITree :=
  ITree.mk (0, 1000) 1 1 [("k", 50, "W")] (3/10) 10 (List.replicate 10 none)

/-- Witness for C5 at a concrete input: the invariant survives one
backpropagation on the fresh root. -/
theorem C5_zero_le_wins_le_visits_witness : WinsLeVisits sampleRootUpdated :=
  ((C5_zero_le_wins_le_visits.2.1 sampleRoot [] ("k", 50, "W")
    sampleRootUpdated (by rfl)).1) (winsLeVisits_init _ _ _)

theorem mem_children_of_most_visited {t c : ITree}
    (h : most_visited_child t = some c) : some c ∈ t.children := by
  have hmem : c ∈ t.children.filterMap id := argmaxKey_mem _ h
  rcases List.mem_filterMap.mp hmem with ⟨o, ho, hoc⟩
  cases o with
  | none => simp at hoc
  | some d => simp at hoc; exact hoc ▸ ho

theorem most_visited_child_eq_none_iff (t : ITree) :
    most_visited_child t = none ↔ ∀ c, some c ∉ t.children := by
  constructor
  · intro h c hc
    have : c ∈ t.children.filterMap id := List.mem_filterMap.mpr ⟨some c, hc, rfl⟩
    unfold most_visited_child at h
    rcases he : t.children.filterMap id with _ | ⟨x, xs⟩
    · rw [he] at this; exact absurd this (List.not_mem_nil c)
    · rw [he] at h; exact Option.noConfusion (h : argmaxKey _ (x :: xs) = none)
  · intro h
    unfold most_visited_child
    have : t.children.filterMap id = [] := by
      rcases he : t.children.filterMap id with _ | ⟨x, xs⟩
      · rfl
      · have : x ∈ t.children.filterMap id := by rw [he]; exact List.mem_cons_self x xs
        rcases List.mem_filterMap.mp this with ⟨o, ho, hox⟩
        cases o with
        | none => simp at hox
        | some d =>
            simp at hox
            exact absurd (hox ▸ ho) (h x)
    rw [this]
    rfl

/-- The descent relation of `find_best_interval`: one loop step moves to the
most-visited materialized child, stopping when there is none. -/
inductive MVCReaches : ITree → ITree → Prop where
  | stop (t : ITree) : most_visited_child t = none → MVCReaches t t
  | step (t c n : ITree) : most_visited_child t = some c → MVCReaches c n →
      MVCReaches t n

theorem find_best_interval_of_none (t : ITree)
    (h : most_visited_child t = none) : find_best_interval t = t.interval := by
  rw [find_best_interval]
  split
  · split
    · rename_i d heq
      rw [h] at heq
      exact Option.noConfusion heq
    · rfl
  · rfl

theorem find_best_interval_of_some (t c : ITree)
    (h : most_visited_child t = some c) :
    find_best_interval t = find_best_interval c := by
  rw [find_best_interval]
  split
  · split
    · rename_i d heq
      rw [h] at heq
      rw [Option.some.inj heq]
    · rename_i heq
      rw [h] at heq
      exact Option.noConfusion heq
  · rename_i hc
    exfalso
    have hmem := mem_children_of_most_visited h
    have hne : t.children ≠ [] := fun he => by rw [he] at hmem; simp at hmem
    exact hc (by simp [has_children, List.length_pos_iff_ne_nil, hne])

theorem find_best_interval_spec (t : ITree) :
    ∃ n, MVCReaches t n ∧ most_visited_child n = none ∧
      (∀ c, some c ∉ n.children) ∧ find_best_interval t = n.interval := by
  have key : ∀ (N : ℕ) (u : ITree), sizeOf u = N →
      ∃ n, MVCReaches u n ∧ most_visited_child n = none ∧
        (∀ c, some c ∉ n.children) ∧ find_best_interval u = n.interval := by
    intro N
    induction N using Nat.strong_induction_on with
    | _ N ih =>
        intro u hN
        subst hN
        rcases hm : most_visited_child u with _ | c
        · exact ⟨u, MVCReaches.stop u hm, hm,
            (most_visited_child_eq_none_iff u).mp hm,
            find_best_interval_of_none u hm⟩
        · obtain ⟨n, hr, hn, hnone, hi⟩ :=
            ih (sizeOf c) (sizeOf_lt_of_most_visited hm) c rfl
          exact ⟨n, MVCReaches.step u c n hm hr, hn, hnone,
            (find_best_interval_of_some u c hm).trans hi⟩
  exact key (sizeOf t) t rfl

/-- Claim C9: `find_best_interval` terminates (it is a total function of the
finite tree) and returns the interval of the node obtained by repeatedly
stepping to the most-visited materialized child until a node with no
materialized children is reached; moreover every step of that descent picks
a materialized child with maximal visit count. -/
theorem C9_find_best_interval_descends (t : ITree) :
    (∃ n, MVCReaches t n ∧ most_visited_child n = none ∧
      (∀ c, some c ∉ n.children) ∧ find_best_interval t = n.interval) ∧
    (∀ u c, most_visited_child u = some c →
      some c ∈ u.children ∧ ∀ d, some d ∈ u.children → d.visits ≤ c.visits) := by
  constructor
  · exact find_best_interval_spec t
  · intro u c hm
    refine ⟨mem_children_of_most_visited hm, ?_⟩
    intro d hd
    have hdl : d ∈ u.children.filterMap id := List.mem_filterMap.mpr ⟨some d, hd, rfl⟩
    have hne : u.children.filterMap id ≠ [] := fun he => by
      rw [he] at hdl; exact absurd hdl (List.not_mem_nil d)
    obtain ⟨c', l1, l2, hc', hsplit, hlt, hle⟩ :=
      argmaxKey_spec (fun c : ITree => c.visits) hne
    have hcc : c' = c := by
      have := hc'.symm.trans (hm : most_visited_child u = some c)
      exact Option.some.inj this
    subst hcc
    rw [hsplit] at hdl
    rcases List.mem_append.mp hdl with h | h
    · exact le_of_lt (hlt d h)
    · rcases List.mem_cons.mp h with h | h
      · exact h ▸ le_refl _
      · exact hle d h

/-- Witness for C9 at a concrete input: the depth-one tree descends to its
single child (slot 0), whose interval is returned. -/
theorem C9_find_best_interval_descends_witness :
    (∃ n, MVCReaches sampleTree n ∧ most_visited_child n = none ∧
      (∀ c, some c ∉ n.children) ∧ find_best_interval sampleTree = n.interval) ∧
    (∀ u c, most_visited_child u = some c →
      some c ∈ u.children ∧ ∀ d, some d ∈ u.children → d.visits ≤ c.visits) :=
  C9_find_best_interval_descends sampleTree

/-- Claim C3: for a non-root node (path `p ++ [i]`) with `visits ≥ 1` whose
parent (the node at `p`) has `visits ≥ 1`, `uct_value` is exactly
`wins/visits + C·sqrt(ln(parent.visits)/visits)` with `C` the node's
exploration constant; on the root (no parent) it yields `None` instead of a
numeric score. -/
theorem C3_uct_value_formula (t n par : ITree) (p : List ℕ) (i : ℕ)
    (hn : nodeAt t (p ++ [i]) = some n) (hpar : nodeAt t p = some par)
    (h1 : 1 ≤ n.visits) (h2 : 1 ≤ par.visits) :
    uct_value n (parentAt t (p ++ [i]))
      = some ((n.wins : ℝ) / (n.visits : ℝ) +
          (n.uct_coeff : ℝ) * Real.sqrt (Real.log (par.visits : ℝ) / (n.visits : ℝ))) ∧
    uct_value t (parentAt t []) = none := by
  constructor
  · have hne : p ++ [i] ≠ [] := by simp
    have hdl : (p ++ [i]).dropLast = p := List.dropLast_concat
    have hpe : parentAt t (p ++ [i]) = some par := by
      rw [parentAt, if_neg hne, hdl, hpar]
    rw [hpe]
    rfl
  · rfl

/-- A depth-one concrete tree in which both the root and its only child have
been visited once (the state after one full iteration). -/
def visitedChild : ITree :=
  .mk (0, 100) 1 1 [("k", 50, "W")] (3/10) 10 (List.replicate 10 none)

def visitedRoot : ITree :=
  .mk (0, 1000) 1 1 [("k", 50, "W")] (3/10) 10
    ((List.replicate 10 none).set 0 (some visitedChild))

/-- Witness for C3 at a concrete input: the child in slot 0 of the
once-visited root. -/
theorem C3_uct_value_formula_witness :
    uct_value visitedChild (parentAt visitedRoot ([] ++ [0]))
      = some ((visitedChild.wins : ℝ) / (visitedChild.visits : ℝ) +
          (visitedChild.uct_coeff : ℝ) *
            Real.sqrt (Real.log (visitedRoot.visits : ℝ) / (visitedChild.visits : ℝ))) ∧
    uct_value visitedRoot (parentAt visitedRoot []) = none :=
  C3_uct_value_formula visitedRoot visitedChild visitedRoot [] 0
    (by rfl) (by rfl) (by decide) (by decide)

theorem filter_isNone_pos_iff (t : ITree) :
    0 < (t.children.filter (fun c => c.isNone)).length ↔ none ∈ t.children := by
  rw [List.length_pos_iff_exists_mem]
  constructor
  · rintro ⟨x, hx⟩
    obtain ⟨hmem, hnone⟩ := List.mem_filter.mp hx
    cases x with
    | none => exact hmem
    | some c => simp at hnone
  · intro h
    exact ⟨none, List.mem_filter.mpr ⟨h, rfl⟩⟩

/-- Claim C2: on a node with at least one child slot, `best_child` returns
`None` iff some child slot is still empty; when no slot is empty it returns
the slot holding the child that maximizes the UCT value, with ties broken by
the first occurrence in slot order. -/
theorem C2_best_child_selection (t : ITree)
    (hN : 0 < t.num_chunks) (hlen : t.children.length = t.num_chunks) :
    (best_child t = none ↔ none ∈ t.children) ∧
    (none ∉ t.children →
      ∃ (i : ℕ) (c : ITree), best_child t = some i ∧ t.children[i]? = some (some c) ∧
        (∀ (j : ℕ) (d : ITree), t.children[j]? = some (some d) →
          uctKey t.visits d ≤ uctKey t.visits c) ∧
        (∀ (j : ℕ) (d : ITree), j < i → t.children[j]? = some (some d) →
          uctKey t.visits d < uctKey t.visits c)) := by
  have hL : 0 < t.children.length := hlen ▸ hN
  have hL0 : t.children.length ≠ 0 := Nat.pos_iff_ne_zero.mp hL
  have hmax : none ∉ t.children →
      ∃ (i : ℕ) (c : ITree), best_child t = some i ∧ t.children[i]? = some (some c) ∧
        (∀ (j : ℕ) (d : ITree), t.children[j]? = some (some d) →
          uctKey t.visits d ≤ uctKey t.visits c) ∧
        (∀ (j : ℕ) (d : ITree), j < i → t.children[j]? = some (some d) →
          uctKey t.visits d < uctKey t.visits c) := by
    intro hmem
    have hfe : ¬ 0 < (t.children.filter (fun c => c.isNone)).length :=
      fun h => hmem ((filter_isNone_pos_iff t).mp h)
    have hbc : best_child t = argmaxKey (slotKey t) (List.range t.children.length) := by
      rw [best_child, if_neg hL0, if_neg hfe]
    have hrne : List.range t.children.length ≠ [] := by
      simpa [List.range_eq_nil] using hL0
    obtain ⟨i, l1, l2, hargm, hsplit, hlt, hle⟩ := argmaxKey_spec (slotKey t) hrne
    -- locate `i`: the prefix `l1` is exactly `range i`
    have hiL : i < t.children.length := by
      have : i ∈ List.range t.children.length := by
        rw [hsplit]
        exact List.mem_append.mpr (Or.inr (List.mem_cons_self i l2))
      exact List.mem_range.mp this
    have hl1i : l1.length = i := by
      have h1 : (List.range t.children.length)[l1.length]? = some i := by
        rw [hsplit, List.getElem?_append_right (le_refl l1.length)]
        simp
      by_cases hlen1 : l1.length < t.children.length
      · rw [List.getElem?_range hlen1] at h1
        exact Option.some.inj h1
      · rw [List.getElem?_eq_none (by simpa using Nat.le_of_not_lt hlen1)] at h1
        exact Option.noConfusion h1
    have hl1 : l1 = List.range i := by
      have ht : (List.range t.children.length).take l1.length = l1 := by
        rw [hsplit]
        exact List.take_left l1 (i :: l2)
      rw [List.take_range, hl1i, Nat.min_eq_left (Nat.le_of_lt hiL)] at ht
      exact ht.symm
    obtain ⟨c, hc⟩ : ∃ c, t.children[i]? = some (some c) := by
      have hsome : t.children[i]? = some t.children[i] := List.getElem?_eq_getElem hiL
      rcases ho : t.children[i] with _ | c
      · rw [ho] at hsome
        exact absurd (List.getElem?_mem hsome) hmem
      · exact ⟨c, by rw [hsome, ho]⟩
    have hkey : ∀ j d, t.children[j]? = some (some d) →
        slotKey t j = uctKey t.visits d := by
      intro j d h
      simp [slotKey, h]
    have hmeml2 : ∀ j, j ∈ List.range t.children.length → i < j → j ∈ l2 := by
      intro j hjr hij
      rw [hsplit] at hjr
      rcases List.mem_append.mp hjr with h | h
      · rw [hl1] at h
        exact absurd (List.mem_range.mp h) (Nat.lt_asymm hij)
      · rcases List.mem_cons.mp h with h | h
        · exact absurd h (Nat.ne_of_gt hij)
        · exact h
    refine ⟨i, c, by rw [hbc]; exact hargm, hc, ?_, ?_⟩
    · intro j d hjd
      have hjL : j < t.children.length := (List.getElem?_eq_some_iff.mp hjd).1
      rcases Nat.lt_trichotomy j i with hj | hj | hj
      · have hjl1 : j ∈ l1 := hl1 ▸ List.mem_range.mpr hj
        have hk := hlt j hjl1
        rw [hkey j d hjd, hkey i c hc] at hk
        exact le_of_lt hk
      · subst hj
        rw [hjd] at hc
        exact le_of_eq
          (congrArg (uctKey t.visits) (Option.some.inj (Option.some.inj hc)))
      · have hjl2 : j ∈ l2 := hmeml2 j (List.mem_range.mpr hjL) hj
        have hk := hle j hjl2
        rw [hkey j d hjd, hkey i c hc] at hk
        exact hk
    · intro j d hij hjd
      have hjl1 : j ∈ l1 := hl1 ▸ List.mem_range.mpr hij
      have hk := hlt j hjl1
      rw [hkey j d hjd, hkey i c hc] at hk
      exact hk
  refine ⟨?_, hmax⟩
  constructor
  · intro hnone
    by_cases hmem : none ∈ t.children
    · exact hmem
    · obtain ⟨i, c, hbc, _⟩ := hmax hmem
      rw [hnone] at hbc
      exact Option.noConfusion hbc
  · intro hmem
    have hf : 0 < (t.children.filter (fun c => c.isNone)).length :=
      (filter_isNone_pos_iff t).mpr hmem
    rw [best_child, if_neg hL0, if_pos hf]

/-- Witness for C2 at a concrete input: the once-visited root has slots 1–9
still empty, so `best_child` reports "no selection" there. -/
theorem C2_best_child_selection_witness :
    (best_child visitedRoot = none ↔ none ∈ visitedRoot.children) ∧
    (none ∉ visitedRoot.children →
      ∃ (i : ℕ) (c : ITree), best_child visitedRoot = some i ∧
        visitedRoot.children[i]? = some (some c) ∧
        (∀ (j : ℕ) (d : ITree), visitedRoot.children[j]? = some (some d) →
          uctKey visitedRoot.visits d ≤ uctKey visitedRoot.visits c) ∧
        (∀ (j : ℕ) (d : ITree), j < i → visitedRoot.children[j]? = some (some d) →
          uctKey visitedRoot.visits d < uctKey visitedRoot.visits c)) :=
  C2_best_child_selection visitedRoot (by decide) (by decide)

/-- The optimizer's running classification lists
(`self.samples_win` / `self.samples_loss`). -/
structure OptState : Type where
  samples_win : List ℚ
  samples_loss : List ℚ

/-- Behaviour of one `subprocess.check_output` call: either a normal exit
with the captured stdout, or a `CalledProcessError` whose `e.output` carries
whatever was captured before the abnormal exit. -/
inductive EvalResult : Type where
  | ok (output : String)
  | processError (output : String)

/-- The `win_loss` string `UCTOptimizer.sample` works with: in both the
`try` branch and the `except CalledProcessError` branch it is the captured
output.  (The `.strip()` of the source is absorbed into the model: the
oracle supplies the already-stripped capture, which loses no generality
because the stripped string is the only thing the code ever consumes.) -/
def capturedOutput : EvalResult → String
  | .ok s => s
  | .processError s => s

/-- `UCTOptimizer.sample(node, param)` with the node given by `path`; the
`uniform` draw `p` and the subprocess behaviour `er` are oracle inputs.  The
code classifies `p` into `samples_win` iff the output is `'W'` (anything
else counts as a loss) and then backpropagates the record from the node.  A
`none` result is the uncaught `KeyError` raised inside `propegate_result`
when the outcome string is not a `WIN_RESULTS` key — the run dies, so the
(already mutated) classification lists are unobservable. -/
def sample (st : OptState) (t : ITree) (path : List ℕ) (param : String)
    (p : ℚ) (er : EvalResult) : Option (OptState × ITree × String) :=
  match propagateAt t path (param, p, capturedOutput er) with
  | none => none
  | some t' =>
      some (if capturedOutput er = "W"
              then { st with samples_win := st.samples_win ++ [p] }
              else { st with samples_loss := st.samples_loss ++ [p] },
            t', capturedOutput er)

/-- Claim C7 counterexample: an evaluator that exits normally but prints a
string outside {'W','L','D'} (here `"X"`) aborts the sampling step — the
`WIN_RESULTS` lookup in `propegate_result` is a `KeyError` — even though the
target node and path are valid.  The claim that ANY captured output is
usable for backpropagation and that the loop never crashes is false. -/
theorem C7_counterexample :
    (nodeAt sampleRoot []).isSome = true ∧
    sample ⟨[], []⟩ sampleRoot [] "k" 500 (EvalResult.ok "X") = none :=
  ⟨rfl, rfl⟩

/-- Claim C7 (amended): an abnormal exit of the evaluator is recovered — the
exception's captured output is used as the outcome signal — and the captured
output is always the classification signal; but the sampling step only
completes (instead of dying with a `KeyError` during backpropagation) when
the stripped output is one of 'W', 'L', 'D'. -/
theorem C7_sample_uses_captured_output (st : OptState) (t : ITree)
    (path : List ℕ) (param : String) (p : ℚ) (er : EvalResult)
    (hpath : (nodeAt t path).isSome)
    (hout : capturedOutput er = "W" ∨ capturedOutput er = "L" ∨
      capturedOutput er = "D") :
    ∃ st' t', sample st t path param p er = some (st', t', capturedOutput er) ∧
      (capturedOutput er = "W" →
        st'.samples_win = st.samples_win ++ [p] ∧
        st'.samples_loss = st.samples_loss) ∧
      (capturedOutput er ≠ "W" →
        st'.samples_loss = st.samples_loss ++ [p] ∧
        st'.samples_win = st.samples_win) := by
  obtain ⟨w, hw⟩ : ∃ w, WIN_RESULTS (capturedOutput er) = some w := by
    rcases hout with h | h | h <;> rw [h] <;> exact ⟨_, rfl⟩
  obtain ⟨t', hprop, _, _⟩ :=
    propagate_spec (param, p, capturedOutput er) w hw path t hpath
  refine ⟨if capturedOutput er = "W"
            then { st with samples_win := st.samples_win ++ [p] }
            else { st with samples_loss := st.samples_loss ++ [p] },
          t', ?_, ?_, ?_⟩
  · simp only [sample, hprop]
  · intro h
    rw [if_pos h]
    exact ⟨rfl, rfl⟩
  · intro h
    rw [if_neg h]
    exact ⟨rfl, rfl⟩

/-- Witness for the amended C7 at a concrete input: the evaluator process
exits abnormally but its captured output `"W"` is still consumed. -/
theorem C7_sample_uses_captured_output_witness :
    ∃ st' t', sample ⟨[], []⟩ sampleRoot [] "k" 500 (EvalResult.processError "W")
        = some (st', t', capturedOutput (EvalResult.processError "W")) ∧
      (capturedOutput (EvalResult.processError "W") = "W" →
        st'.samples_win = ([] : List ℚ) ++ [500] ∧
        st'.samples_loss = ([] : List ℚ)) ∧
      (capturedOutput (EvalResult.processError "W") ≠ "W" →
        st'.samples_loss = ([] : List ℚ) ++ [500] ∧
        st'.samples_win = ([] : List ℚ)) :=
  C7_sample_uses_captured_output ⟨[], []⟩ sampleRoot [] "k" 500
    (EvalResult.processError "W") (by rfl) (Or.inl (by rfl))

/-- Oracle replacing the random draws and the external evaluator of the
driver: at iteration `k`, `pick k` chooses among the unvisited slots,
`point k` is the `uniform` draw, and `evalRes k` the subprocess behaviour. -/
structure Oracle : Type where
  pick : ℕ → ℕ
  point : ℕ → ℚ
  evalRes : ℕ → EvalResult

/-- Python exceptions that can escape the pieces of `tune_params`.  The
spec's ConfigurationError is included so that the rejection claim is
statable; the code has no validation and never raises it. -/
inductive RunError : Type where
  | keyError
  | valueError
  | attributeError
  | indexError
  | configError
deriving DecidableEq

/-- `inflate_random_child`'s list of unvisited (empty) slot indices. -/
def unvisited (t : ITree) : List ℕ :=
  (List.range t.num_chunks).filter (fun i =>
    match t.children[i]? with
    | some none => true
    | _ => false)

/-- One `tune_params` loop iteration on the subtree rooted at `t`:
while `best_child` yields a child the walk descends into it (the
backpropagation of the later `sample` call updates this node on unwinding);
at the node where `best_child` yields `None` (the expansion point),
`inflate_random_child` materializes an oracle-chosen unvisited slot and
`sample` draws a point, invokes the evaluator and backpropagates the record
starting from the new child.  Error cases mirror the Python exceptions:
`inflate_random_child` returning `None` (its `visits > num_chunks` guard)
makes `sample(None, ...)` die with an `AttributeError`; `random.sample` on
an empty unvisited list is a `ValueError`; an unknown outcome string is the
`KeyError` of `WIN_RESULTS`. -/
noncomputable def runIteration (pick : ℕ) (p : ℚ) (er : EvalResult)
    (param : String) : ITree → Except RunError (ITree × Sample)
  | t =>
    match best_child t with
    | some i =>
        match hc : t.children[i]? with
        | some (some c) =>
            match runIteration pick p er param c with
            | .error e => .error e
            | .ok (c', rec) =>
                match localUpdate (setChild t i c') rec with
                | some t' => .ok (t', rec)
                | none => .error .keyError
        | _ => .error .attributeError
    | none =>
        if t.num_chunks < t.visits then .error .attributeError
        else
          match unvisited t with
          | [] => .error .valueError
          | u :: us =>
              match make_child_for_interval t
                  ((u :: us).get ⟨pick % (u :: us).length,
                    Nat.mod_lt _ (Nat.succ_pos us.length)⟩) with
              | none => .error .indexError
              | some (t1, child) =>
                  match localUpdate child (param, p, capturedOutput er) with
                  | none => .error .keyError
                  | some child' =>
                      match localUpdate (setChild t1
                          ((u :: us).get ⟨pick % (u :: us).length,
                            Nat.mod_lt _ (Nat.succ_pos us.length)⟩) child')
                          (param, p, capturedOutput er) with
                      | some t' => .ok (t', (param, p, capturedOutput er))
                      | none => .error .keyError
termination_by t => sizeOf t
decreasing_by exact sizeOf_lt_of_mem_children (List.getElem?_mem hc)

/-- The `for iterations in xrange(self.iterations)` loop of `tune_params`;
`k` counts the iterations already performed (indexing the oracle).  A
non-positive Python iteration count gives an empty `xrange`, i.e. the `0`
case here. -/
noncomputable def runLoop (orc : Oracle) (param : String) :
    ℕ → ℕ → ITree → Except RunError ITree
  | 0, _, root => .ok root
  | n + 1, k, root =>
      match runIteration (orc.pick k) (orc.point k) (orc.evalRes k) param root with
      | .error e => .error e
      | .ok (root', _) => runLoop orc param n (k + 1) root'

/-- `UCTOptimizer.tune_params(params)`, with `iterations` and `uct_coeff`
taken from `UCTOptimizer.__init__` (which hard-codes `num_chunks = 10` and
performs no validation of any argument).  The root node is built over the
first parameter's `(start, end)` bounds exactly as given; after the loop,
`find_best_interval` extracts the answer
`(params[0][0], best_interval[0], best_interval[1])`.  The only failure
outside the loop is `params[0]` on an empty list (`IndexError`).  There is
no configuration check of any kind. -/
noncomputable def tune_params (iterations : ℕ) (uct_coeff : ℚ) (orc : Oracle)
    (params : List (String × ℚ × ℚ)) : Except RunError (String × ℚ × ℚ) :=
  match params with
  | [] => .error .indexError
  | p1 :: _ =>
      match runLoop orc p1.1 iterations 0
          (IntervalNode.init (p1.2.1, p1.2.2) uct_coeff 10) with
      | .error e => .error e
      | .ok root =>
          .ok (p1.1, (find_best_interval root).1, (find_best_interval root).2)

/-- With an iteration budget of zero the loop body never runs and
`tune_params` returns the first parameter's domain verbatim, whatever that
domain is — shared backbone of the C8 results. -/
theorem tune_params_zero_iterations (uct_coeff lo hi : ℚ) (name : String)
    (orc : Oracle) (rest : List (String × ℚ × ℚ)) :
    tune_params 0 uct_coeff orc ((name, lo, hi) :: rest)
      = Except.ok (name, lo, hi) := by
  have hroot : most_visited_child (IntervalNode.init (lo, hi) uct_coeff 10) = none := by
    rw [most_visited_child_eq_none_iff]
    intro c hc
    simp [IntervalNode.init, List.mem_replicate] at hc
  have hfbi := find_best_interval_of_none _ hroot
  simp only [tune_params, runLoop, hfbi]
  rfl

/-- A constant oracle; its values are irrelevant at iteration count 0. -/
def zeroOracle : Oracle := ⟨fun _ => 0, fun _ => 0, fun _ => EvalResult.ok "W"⟩

/-- Claim C8 counterexample: a run configured with a non-positive iteration
count (0) and an inverted, zero-progress domain `(1, 0)` is NOT rejected —
no configuration error is raised before (or instead of) the search loop;
`tune_params` completes normally and returns the degenerate domain. -/
theorem C8_counterexample :
    tune_params 0 (3/10) zeroOracle [("k", 1, 0)] = Except.ok ("k", 1, 0) ∧
    ∀ e : RunError, tune_params 0 (3/10) zeroOracle [("k", 1, 0)]
      ≠ Except.error e := by
  have h := tune_params_zero_iterations (3/10) 1 0 "k" zeroOracle []
  refine ⟨h, fun e hcontra => ?_⟩
  rw [h] at hcontra
  exact Except.noConfusion hcontra

/-- Claim C8 (amended): the optimizer performs no configuration validation.
A non-positive branching factor cannot even be configured (`num_chunks` is
hard-coded to 10); a non-positive iteration count or a degenerate
(zero-width or inverted) domain is accepted without any error: the loop
body simply never runs for a non-positive budget and the full input domain
is returned as the result. -/
theorem C8_no_config_validation (uct_coeff lo hi : ℚ) (name : String)
    (orc : Oracle) (rest : List (String × ℚ × ℚ)) :
    tune_params 0 uct_coeff orc ((name, lo, hi) :: rest)
      = Except.ok (name, lo, hi) :=
  tune_params_zero_iterations uct_coeff lo hi name orc rest

end UCTOpt
